import Mathlib

/-!
Verification of the `git-repo-loader` library (`src/index.ts`).

The development shallowly embeds the `GitHubRepoLoader` pipeline:
byte-level UTF-8 encoding/decoding (Node's `Buffer.from(_, "utf-8")` /
`buf.toString("utf-8")`), the `.gitignore` parser, the tree enumerator,
the per-file content fetcher, the output formatter, and the two top-level
operations `fetchRepoContent` / `fetchRepoContentStream`.  The remote
GitHub API is modelled as an explicit environment (`Env`): one repository
snapshot fixing the rate-limit quota, the commit's tree SHA, the recursive
tree listing, and the per-path `getContent` responses.  The mutable
instance field `ignoredFiles` is threaded explicitly, and every remote
call issued is recorded in a trace of `ApiCall`s.
-/

namespace GitRepoLoader

/-! ## Byte-level text model

Node `Buffer` values are modelled as `List Nat` (each entry a byte).
`utf8EncodeChar`/`utf8Encode` model UTF-8 encoding of a JS string
(`Buffer.from(s, "utf-8")`); `utf8Decode` models `buf.toString("utf-8")`,
which is lossy: well-formed UTF-8 decodes to its code points, while
ill-formed bytes produce replacement characters instead of raising.  (On
ill-formed input this model consumes the offending byte where Node's
WHATWG decoder would resynchronise at it; no theorem below depends on the
ill-formed case beyond totality.) -/

/-- UTF-8 encoding of a single code point (JS strings decoded from buffers
never contain lone surrogates, so `Char` is an adequate model). -/
def utf8EncodeChar (c : Char) : List Nat :=
  let v := c.toNat
  if v < 0x80 then [v]
  else if v < 0x800 then [0xC0 + v / 64, 0x80 + v % 64]
  else if v < 0x10000 then [0xE0 + v / 4096, 0x80 + (v / 64) % 64, 0x80 + v % 64]
  else [0xF0 + v / 262144, 0x80 + (v / 4096) % 64, 0x80 + (v / 64) % 64, 0x80 + v % 64]

/-- `Buffer.from(s, "utf-8")`: the UTF-8 byte sequence of a string. -/
def utf8Encode (s : String) : List Nat :=
  (s.data.map utf8EncodeChar).flatten

/-- U+FFFD, the replacement character produced for ill-formed input. -/
def replChar : Char := Char.ofNat 0xFFFD

/-- Is `b` a UTF-8 continuation byte (`10xxxxxx`)? -/
def isCont (b : Nat) : Bool := 0x80 ≤ b && b < 0xC0

/-- Decoder state: `need` continuation bytes still expected (`0` when no
sequence is pending), `size` the byte length of the pending sequence and
`acc` the code-point bits accumulated so far. -/
structure Ustate where
  need : Nat
  size : Nat
  acc : Nat

/-- Initial decoder state. -/
def ustart : Ustate := ⟨0, 0, 0⟩

/-- Final validity check when a multi-byte sequence completes: overlong
encodings, surrogate code points and out-of-range values are ill-formed. -/
def finishChar (size v : Nat) : Char :=
  if size = 2 then (if 0x80 ≤ v ∧ v < 0x800 then Char.ofNat v else replChar)
  else if size = 3 then
    (if 0x800 ≤ v ∧ ¬ (0xD800 ≤ v ∧ v < 0xE000) ∧ v < 0x10000 then Char.ofNat v else replChar)
  else if 0x10000 ≤ v ∧ v < 0x110000 then Char.ofNat v else replChar

/-- One-byte-at-a-time UTF-8 decoding automaton. -/
def goSM : Ustate → List Nat → List Char
  | st, [] => if st.need = 0 then [] else [replChar]
  | st, b :: rest =>
    if st.need = 0 then
      if b < 0x80 then Char.ofNat b :: goSM ustart rest
      else if b < 0xC2 then replChar :: goSM ustart rest
      else if b < 0xE0 then goSM ⟨1, 2, b - 0xC0⟩ rest
      else if b < 0xF0 then goSM ⟨2, 3, b - 0xE0⟩ rest
      else if b < 0xF5 then goSM ⟨3, 4, b - 0xF0⟩ rest
      else replChar :: goSM ustart rest
    else
      if isCont b then
        if st.need = 1 then finishChar st.size (st.acc * 64 + (b - 0x80)) :: goSM ustart rest
        else goSM ⟨st.need - 1, st.size, st.acc * 64 + (b - 0x80)⟩ rest
      else replChar :: goSM ustart rest

/-- `buf.toString("utf-8")` as a `String`. -/
def utf8Decode (l : List Nat) : String := ⟨goSM ustart l⟩

/-! ## JS string helpers

`splitOnNl` models `s.split("\n")` (splitting at every newline, keeping
empty pieces), `jsTrim` models `line.trim()` (dropping leading and
trailing whitespace), `startsWithHash` models `line.startsWith("#")`, and
`joinSep` models `array.join(sep)`. -/

/-- `s.split("\n")` on the underlying character list. -/
def splitOnNl (l : List Char) : List (List Char) :=
  l.foldr (fun c acc => if c = '\n' then [] :: acc else (c :: acc.headI) :: acc.tail) [[]]

/-- `s.split("\n")`. -/
def jsSplitNl (s : String) : List String :=
  (splitOnNl s.data).map (fun g => ⟨g⟩)

/-- `line.trim()`: strip leading and trailing whitespace. -/
def jsTrim (s : String) : String :=
  ⟨((s.data.dropWhile Char.isWhitespace).reverse.dropWhile Char.isWhitespace).reverse⟩

/-- `line.startsWith("#")`. -/
def startsWithHash (s : String) : Bool :=
  match s.data with
  | [] => false
  | c :: _ => c = '#'

/-- `array.join(sep)`. -/
def joinSep (sep : String) : List String → String
  | [] => ""
  | x :: rest => rest.foldl (fun acc y => acc ++ sep ++ y) x

/-! ## Data model and environment -/

/-- One entry of the recursive tree listing (`treeData.data.tree`): the
code reads `item.path` and `item.type`. -/
structure TreeItem where
  path : String
  type : String
  deriving Repr, DecidableEq

/-- A fetched file as produced by `fetchFileContent`. -/
structure FetchedFile where
  path : String
  content : String
  deriving Repr, DecidableEq

/-- Outcome of one `octokit.repos.getContent` call: a response carrying a
`content` field (already base64-decoded to raw bytes here), a response
without a `content` field, or a thrown error. -/
inductive ContentResult where
  | ok (bytes : List Nat)
  | noContent
  | err
  deriving Repr, DecidableEq

/-- One fixed repository snapshot as seen through the GitHub API:
the remaining rate-limit quota, `commitData.data.commit.tree.sha`, the
recursive tree listing, and the per-path `getContent` behaviour. -/
structure Env where
  remaining : Nat
  treeSha : Option String
  tree : List TreeItem
  getContent : String → ContentResult

/-- Remote calls the loader can issue, recorded in traces. -/
inductive ApiCall where
  | rateLimit
  | getCommit
  | getTree
  | content (path : String)
  deriving Repr, DecidableEq

/-- `type OutputFormat = "json" | "string" | "buffer"`. -/
inductive OutputFormat where
  | json
  | string
  | buffer
  deriving Repr, DecidableEq

/-- Result of `formatOutput`: the raw collection, a rendered string, or a
`Buffer` of bytes. -/
inductive Output where
  | json (files : List FetchedFile)
  | str (s : String)
  | buf (bytes : List Nat)
  deriving Repr, DecidableEq

/-- Decidable equality of `Except` results, used to evaluate the model on
concrete snapshots. -/
instance exceptDecEq {ε α : Type} [DecidableEq ε] [DecidableEq α] :
    DecidableEq (Except ε α) := fun x y =>
  match x, y with
  | .ok a, .ok b =>
    if h : a = b then .isTrue (by rw [h])
    else .isFalse (fun hc => h (Except.ok.inj hc))
  | .error a, .error b =>
    if h : a = b then .isTrue (by rw [h])
    else .isFalse (fun hc => h (Except.error.inj hc))
  | .ok _, .error _ => .isFalse (fun hc => Except.noConfusion hc)
  | .error _, .ok _ => .isFalse (fun hc => Except.noConfusion hc)

/-- The error message thrown on `remaining === 0`. -/
def rateLimitMsg : String := "GitHub Rate limit exceeded. Please try again later."

/-- The error message thrown when the commit's tree SHA is missing. -/
def treeShaMsg : String := "Tree SHA not found"

/-- Stand-in for whatever error a failing `getContent` call throws. -/
def contentErrMsg : String := "content fetch failed"

/-- The fixed path of the exclusion file. -/
def gitignorePath : String := ".gitignore"

/-! ## The pipeline -/

/-- The line filter and `Set` construction inside `loadGitignore`:
`content.split("\n").map(trim).filter(line && !line.startsWith("#"))`.
(`new Set` only affects membership, so the model keeps the list.) -/
def parseGitignore (s : String) : List String :=
  ((jsSplitNl s).map jsTrim).filter (fun line => line ≠ "" && !(startsWithHash line))

/-- `loadGitignore(owner, repo)`: fetches `.gitignore`; on a response with
content it replaces `this.ignoredFiles`, otherwise (no `content` field, or
a thrown error caught by the `try`) the previous set is kept.  Returns the
new `ignoredFiles` state and the trace of issued calls. -/
def loadGitignore (env : Env) (st : List String) : List String × List ApiCall :=
  (match env.getContent gitignorePath with
   | .ok bytes => parseGitignore (utf8Decode bytes)
   | .noContent => st
   | .err => st,
   [ApiCall.content gitignorePath])

/-- `(!filterFn || filterFn(item.path))`. -/
def passFilter (filterFn : Option (String → Bool)) (p : String) : Bool :=
  match filterFn with
  | none => true
  | some f => f p

/-- `getRepoFiles(owner, repo, branch, filterFn)`: resolves the branch
commit, requires a tree SHA, lists the tree recursively and filters it to
blobs passing `filterFn` whose path is not in `ignoredFiles`. -/
def getRepoFiles (env : Env) (st : List String) (filterFn : Option (String → Bool)) :
    Except String (List TreeItem) × List ApiCall :=
  match env.treeSha with
  | none => (.error treeShaMsg, [ApiCall.getCommit])
  | some _ =>
    (.ok (env.tree.filter fun item =>
        item.type == "blob" && passFilter filterFn item.path && !(st.contains item.path)),
     [ApiCall.getCommit, ApiCall.getTree])

/-- `fetchFileContent(owner, repo, file, decodeContent)`: fetches one
blob; a response with content is base64-decoded (`bytes` here), optionally
re-encoded through UTF-8 text when `decodeContent` is set, and returned as
UTF-8 text; a response without content yields `none`. -/
def fetchFileContent (env : Env) (decodeContent : Bool) (file : TreeItem) :
    Except String (Option FetchedFile) × List ApiCall :=
  (match env.getContent file.path with
   | .ok bytes =>
     .ok (some ⟨file.path,
       utf8Decode (if decodeContent then utf8Encode (utf8Decode bytes) else bytes)⟩)
   | .noContent => .ok none
   | .err => .error contentErrMsg,
   [ApiCall.content file.path])

/-- `File: ${f.path}\nContent:\n${f.content}\n---\n`. -/
def formatBlock (f : FetchedFile) : String :=
  "File: " ++ f.path ++ "\nContent:\n" ++ f.content ++ "\n---\n"

/-- `formatOutput(files, format)`. -/
def formatOutput (files : List FetchedFile) (format : OutputFormat) : Output :=
  match format with
  | .json => .json files
  | .string => .str (joinSep "\n" (files.map formatBlock))
  | .buffer => .buf (utf8Encode (joinSep "\n" (files.map formatBlock)))

/-- `Promise.all(files.map(file => fetchFileContent(...)))`: every fetch
is started (so every call appears in the trace); the promise resolves to
the list of results in input order, or rejects if any fetch failed. -/
def fetchAll (env : Env) (decodeContent : Bool) :
    List TreeItem → Except String (List (Option FetchedFile)) × List ApiCall
  | [] => (.ok [], [])
  | f :: rest =>
    let r := fetchFileContent env decodeContent f
    let rs := fetchAll env decodeContent rest
    (do
      let x ← r.1
      let xs ← rs.1
      pure (x :: xs),
     r.2 ++ rs.2)

/-- `fetchRepoContent`: quota check, optional exclusion load, enumeration,
concurrent per-file fetch, filtering of absent results, and formatting.
Returns the result, the final `ignoredFiles` state, and the call trace. -/
def fetchRepoContent (env : Env) (st : List String) (decodeContent ignoreGitIgnoreFiles : Bool)
    (outputFormat : OutputFormat) (filterFn : Option (String → Bool)) :
    Except String Output × List String × List ApiCall :=
  if env.remaining = 0 then
    (.error rateLimitMsg, st, [ApiCall.rateLimit])
  else
    let g := if ignoreGitIgnoreFiles then loadGitignore env st else (st, [])
    match getRepoFiles env g.1 filterFn with
    | (.error e, t2) => (.error e, g.1, ApiCall.rateLimit :: (g.2 ++ t2))
    | (.ok files, t2) =>
      let r := fetchAll env decodeContent files
      match r.1 with
      | .error e => (.error e, g.1, ApiCall.rateLimit :: (g.2 ++ t2 ++ r.2))
      | .ok contents =>
        (.ok (formatOutput (contents.filterMap id) outputFormat), g.1,
         ApiCall.rateLimit :: (g.2 ++ t2 ++ r.2))

/-- The generator loop of `fetchRepoContentStream`: each file is fetched
sequentially; present results are formatted and yielded one at a time; a
fetch failure ends the sequence with that error after the items already
yielded. Returns (yielded outputs, terminal error if any) and the trace. -/
def streamRun (env : Env) (decodeContent : Bool) (outputFormat : OutputFormat) :
    List TreeItem → (List Output × Option String) × List ApiCall
  | [] => (([], none), [])
  | f :: rest =>
    let r := fetchFileContent env decodeContent f
    match r.1 with
    | .error e => (([], some e), r.2)
    | .ok none =>
      let s := streamRun env decodeContent outputFormat rest
      (s.1, r.2 ++ s.2)
    | .ok (some file) =>
      let s := streamRun env decodeContent outputFormat rest
      ((formatOutput [file] outputFormat :: s.1.1, s.1.2), r.2 ++ s.2)

/-- `fetchRepoContentStream`, collected: the full (finite) sequence of
yields of the async generator together with its terminal error, the final
`ignoredFiles` state and the call trace. -/
def fetchRepoContentStream (env : Env) (st : List String)
    (decodeContent ignoreGitIgnoreFiles : Bool) (outputFormat : OutputFormat)
    (filterFn : Option (String → Bool)) :
    (List Output × Option String) × List String × List ApiCall :=
  if env.remaining = 0 then
    (([], some rateLimitMsg), st, [ApiCall.rateLimit])
  else
    let g := if ignoreGitIgnoreFiles then loadGitignore env st else (st, [])
    match getRepoFiles env g.1 filterFn with
    | (.error e, t2) => (([], some e), g.1, ApiCall.rateLimit :: (g.2 ++ t2))
    | (.ok files, t2) =>
      let s := streamRun env decodeContent outputFormat files
      (s.1, g.1, ApiCall.rateLimit :: (g.2 ++ t2 ++ s.2))

/-! ## Derived notions used in the statements -/

/-- The per-file fetch outcome, with the `absent` case flattened in:
`some file` when the response carried content, `none` otherwise
(a failing call contributes `none` here; errors are tracked separately). -/
def okContentOf (env : Env) (decodeContent : Bool) (f : TreeItem) : Option FetchedFile :=
  ((fetchFileContent env decodeContent f).1.toOption).join

/-- Every content fetch for `files` succeeds (no thrown errors; responses
without content are fine). -/
def fetchOkAll (env : Env) (files : List TreeItem) : Prop :=
  ∀ f ∈ files, env.getContent f.path ≠ .err

/-- The `ignoredFiles` state right after the optional exclusion reload at
the start of a top-level call. -/
def postIgnoreState (env : Env) (st : List String) (ignoreGitIgnoreFiles : Bool) :
    List String :=
  if ignoreGitIgnoreFiles then (loadGitignore env st).1 else st

/-- The entries a top-level call enumerates: the `getRepoFiles` listing
after the optional exclusion reload (empty when enumeration fails). -/
def enumeratedFiles (env : Env) (st : List String) (ignoreGitIgnoreFiles : Bool)
    (filterFn : Option (String → Bool)) : List TreeItem :=
  match (getRepoFiles env (postIgnoreState env st ignoreGitIgnoreFiles) filterFn).1 with
  | .ok fs => fs
  | .error _ => []

/-- A completion schedule: the fetches of a batch settle in the order
`sched` lists their indices (`Promise.all` starts them all; the remote
may complete them in any order). -/
def runSchedule {α : Type} (fetch : Nat → α) : List Nat → List (Nat × α)
  | [] => []
  | i :: rest => (i, fetch i) :: runSchedule fetch rest

/-- Re-assemble settled results by originating index, the way
`Promise.all` fills its result array: slot `i` gets the result of
request `i`, never of whichever request completed `i`-th. -/
def gather {α : Type} (n : Nat) (results : List (Nat × α)) : List (Option α) :=
  (List.range n).map (fun i => results.lookup i)

/-- The fetch result of the `i`-th enumerated entry. -/
def fileResAt (env : Env) (decodeContent : Bool) (files : List TreeItem) (i : Nat) :
    Except String (Option FetchedFile) :=
  match files[i]? with
  | some f => (fetchFileContent env decodeContent f).1
  | none => .error contentErrMsg

/-- `sched` contains every index of a batch of `n` requests. -/
def coversRange (n : Nat) (sched : List Nat) : Prop :=
  ∀ i, i < n → i ∈ sched

/-! ## Request scheduler

Modelled from the spec: the scheduler (`RateLimitManager` of the
`safe-calls` dependency, reached through `wrapWithRateLimit`) is not part
of this repository's sources, so its admission discipline is taken from
the specification: an operation may start only when fewer than
`concurrency` operations are in flight AND fewer than
`requestsPerInterval` operations started within the trailing `intervalMs`
window — both gates at once. -/

/-- The scheduler configuration accepted at construction. -/
structure RateLimitConfig where
  concurrency : Nat
  requestsPerInterval : Nat
  intervalMs : Nat

/-- What a scheduler event does: an operation starts or finishes. -/
inductive EvKind where
  | start
  | finish
  deriving Repr, DecidableEq

/-- A timestamped scheduler event. -/
structure Ev where
  time : Nat
  kind : EvKind
  deriving Repr, DecidableEq

/-- Number of operations in flight after the events of `tr`
(most recent event first). -/
def inflight (tr : List Ev) : Nat :=
  tr.countP (fun e => e.kind == .start) - tr.countP (fun e => e.kind == .finish)

/-- Number of operations started inside the window of width `w` ending at
time `t` (the half-open real-time window `(t - w, t]`, phrased without
truncated subtraction). -/
def startsInWindow (w t : Nat) (tr : List Ev) : Nat :=
  tr.countP (fun e => e.kind == .start && decide (e.time ≤ t) && decide (t < e.time + w))

/-- Modelled from the spec: the traces the scheduler can produce.  Events
carry nondecreasing timestamps, and a start is admitted only when both the
concurrency gate and the rate gate hold at its start time. -/
inductive ValidTrace (cfg : RateLimitConfig) : List Ev → Prop where
  | nil : ValidTrace cfg []
  | start {tr : List Ev} {t : Nat} :
      ValidTrace cfg tr →
      (∀ e ∈ tr, e.time ≤ t) →
      inflight tr < cfg.concurrency →
      startsInWindow cfg.intervalMs t tr < cfg.requestsPerInterval →
      ValidTrace cfg (⟨t, .start⟩ :: tr)
  | finish {tr : List Ev} {t : Nat} :
      ValidTrace cfg tr →
      (∀ e ∈ tr, e.time ≤ t) →
      ValidTrace cfg (⟨t, .finish⟩ :: tr)

/-! ## Concrete snapshots used by witnesses and counterexamples -/

/-- A small repository snapshot: two surviving sources, one path excluded
by the ignore file, one `tree` entry, one submodule-like entry, and one
blob whose `getContent` response carries no content payload. -/
def envJ : Env :=
  { remaining := 5
    treeSha := some "sha1"
    tree := [⟨"README.md", "blob"⟩, ⟨"src", "tree"⟩, ⟨"src/a.ts", "blob"⟩,
             ⟨"dist/bundle.js", "blob"⟩, ⟨"sub", "commit"⟩, ⟨"link", "blob"⟩]
    getContent := fun p =>
      if p = ".gitignore" then .ok (utf8Encode "dist/bundle.js\n# comment\n\n")
      else if p = "README.md" then .ok (utf8Encode "hello")
      else if p = "src/a.ts" then .ok (utf8Encode "let x = 1")
      else if p = "dist/bundle.js" then .ok (utf8Encode "bundled")
      else if p = "link" then .noContent
      else .err }

/-- `envJ` with the quota exhausted. -/
def envQ : Env := { envJ with remaining := 0 }

/-- Snapshot for the two-call experiments: the ignore file lists `a.txt`,
which is also the only blob. -/
def envA : Env :=
  { remaining := 1
    treeSha := some "sha2"
    tree := [⟨"a.txt", "blob"⟩]
    getContent := fun p =>
      if p = ".gitignore" then .ok (utf8Encode "a.txt")
      else if p = "a.txt" then .ok (utf8Encode "hi")
      else .noContent }

/-- The `ignoredFiles` state of the instance after a first top-level call
against `envA` (it equals `["a.txt"]`). -/
def stA : List String := (fetchRepoContent envA [] false true .json none).2.1

/-- Like `envA`, but the `.gitignore` fetch now throws. -/
def envB : Env :=
  { remaining := 1
    treeSha := some "sha3"
    tree := [⟨"a.txt", "blob"⟩]
    getContent := fun p =>
      if p = ".gitignore" then .err
      else if p = "a.txt" then .ok (utf8Encode "hi")
      else .noContent }

/-- Snapshot whose tree listing carries the exclusion-example paths. -/
def envC2 : Env :=
  { remaining := 1
    treeSha := some "sha4"
    tree := [⟨"a.txt", "blob"⟩, ⟨"secret/key.pem", "blob"⟩]
    getContent := fun _ => .noContent }

/-- What `getRepoFiles` returns on `envC2` with exclusion set
`{"a.txt", "secret/"}`. -/
def filesC2 : List TreeItem := [⟨"secret/key.pem", "blob"⟩]

/-- A scheduler trace (most recent first): two starts at time 0, a finish
at time 1, a third start at time 2. -/
def trW : List Ev :=
  [⟨2, .start⟩, ⟨1, .finish⟩, ⟨0, .start⟩, ⟨0, .start⟩]

/-! ## Theorems: the UTF-8 round trip -/

theorem goSM_encodeChar (c : Char) (rest : List Nat) :
    goSM ustart (utf8EncodeChar c ++ rest) = c :: goSM ustart rest := by
  have hv : c.toNat < 0xD800 ∨ (0xDFFF < c.toNat ∧ c.toNat < 0x110000) := c.valid
  have hofNat : Char.ofNat c.toNat = c := Char.ofNat_toNat c
  rcases Nat.lt_or_ge c.toNat 0x80 with h1 | h1
  · have he : utf8EncodeChar c = [c.toNat] := by
      simp only [utf8EncodeChar]
      rw [if_pos h1]
    rw [he, List.singleton_append]
    simp only [goSM, ustart]
    simp [h1, hofNat]
  · rcases Nat.lt_or_ge c.toNat 0x800 with h2 | h2
    · have he : utf8EncodeChar c = [0xC0 + c.toNat / 64, 0x80 + c.toNat % 64] := by
        simp only [utf8EncodeChar]
        rw [if_neg (by omega), if_pos h2]
      rw [he, List.cons_append, List.singleton_append]
      have d1 : ¬ (0xC0 + c.toNat / 64 < 0x80) := by omega
      have d2 : ¬ (0xC0 + c.toNat / 64 < 0xC2) := by omega
      have d3 : 0xC0 + c.toNat / 64 < 0xE0 := by omega
      have d4 : isCont (0x80 + c.toNat % 64) = true := by
        simp only [isCont, Bool.and_eq_true, decide_eq_true_eq]
        omega
      have d5 : (0xC0 + c.toNat / 64 - 0xC0) * 64 + (0x80 + c.toNat % 64 - 0x80) = c.toNat := by
        omega
      simp only [goSM, ustart, finishChar]
      simp [d1, d2, d3, d4, d5, h1, h2, hofNat]
      have e : c.toNat / 64 * 64 + c.toNat % 64 = c.toNat := by omega
      rw [e, if_pos ⟨h1, h2⟩, hofNat]
    · rcases Nat.lt_or_ge c.toNat 0x10000 with h3 | h3
      · have he : utf8EncodeChar c =
            [0xE0 + c.toNat / 4096, 0x80 + (c.toNat / 64) % 64, 0x80 + c.toNat % 64] := by
          simp only [utf8EncodeChar]
          rw [if_neg (by omega), if_neg (by omega), if_pos h3]
        rw [he, List.cons_append, List.cons_append, List.singleton_append]
        have d1 : ¬ (0xE0 + c.toNat / 4096 < 0x80) := by omega
        have d2 : ¬ (0xE0 + c.toNat / 4096 < 0xC2) := by omega
        have d3 : ¬ (0xE0 + c.toNat / 4096 < 0xE0) := by omega
        have d4 : 0xE0 + c.toNat / 4096 < 0xF0 := by omega
        have d5 : isCont (0x80 + (c.toNat / 64) % 64) = true := by
          simp only [isCont, Bool.and_eq_true, decide_eq_true_eq]
          omega
        have d6 : isCont (0x80 + c.toNat % 64) = true := by
          simp only [isCont, Bool.and_eq_true, decide_eq_true_eq]
          omega
        have d7 : ((0xE0 + c.toNat / 4096 - 0xE0) * 64 + (0x80 + (c.toNat / 64) % 64 - 0x80)) * 64
            + (0x80 + c.toNat % 64 - 0x80) = c.toNat := by omega
        have d8 : 0x800 ≤ c.toNat ∧ ¬ (0xD800 ≤ c.toNat ∧ c.toNat < 0xE000) ∧
            c.toNat < 0x10000 := by omega
        simp only [goSM, ustart, finishChar]
        simp [d1, d2, d3, d4, d5, d6, d7, d8.1, d8.2.1, d8.2.2, hofNat]
        have e : (c.toNat / 4096 * 64 + c.toNat / 64 % 64) * 64 + c.toNat % 64 = c.toNat := by
          omega
        rw [e, if_pos (by omega), hofNat]
      · have h4 : c.toNat < 0x110000 := by omega
        have he : utf8EncodeChar c =
            [0xF0 + c.toNat / 262144, 0x80 + (c.toNat / 4096) % 64,
             0x80 + (c.toNat / 64) % 64, 0x80 + c.toNat % 64] := by
          simp only [utf8EncodeChar]
          rw [if_neg (by omega), if_neg (by omega), if_neg (by omega)]
        rw [he, List.cons_append, List.cons_append, List.cons_append, List.singleton_append]
        have d1 : ¬ (0xF0 + c.toNat / 262144 < 0x80) := by omega
        have d2 : ¬ (0xF0 + c.toNat / 262144 < 0xC2) := by omega
        have d3 : ¬ (0xF0 + c.toNat / 262144 < 0xE0) := by omega
        have d4 : ¬ (0xF0 + c.toNat / 262144 < 0xF0) := by omega
        have d45 : 0xF0 + c.toNat / 262144 < 0xF5 := by omega
        have d5 : isCont (0x80 + (c.toNat / 4096) % 64) = true := by
          simp only [isCont, Bool.and_eq_true, decide_eq_true_eq]
          omega
        have d6 : isCont (0x80 + (c.toNat / 64) % 64) = true := by
          simp only [isCont, Bool.and_eq_true, decide_eq_true_eq]
          omega
        have d7 : isCont (0x80 + c.toNat % 64) = true := by
          simp only [isCont, Bool.and_eq_true, decide_eq_true_eq]
          omega
        have d8 : (((0xF0 + c.toNat / 262144 - 0xF0) * 64 +
            (0x80 + (c.toNat / 4096) % 64 - 0x80)) * 64 +
            (0x80 + (c.toNat / 64) % 64 - 0x80)) * 64 + (0x80 + c.toNat % 64 - 0x80)
            = c.toNat := by omega
        have d9 : 0x10000 ≤ c.toNat ∧ c.toNat < 0x110000 := by omega
        simp only [goSM, ustart, finishChar]
        simp [d1, d2, d3, d4, d45, d5, d6, d7, d8, d9.1, d9.2, hofNat]
        have e : ((c.toNat / 262144 * 64 + c.toNat / 4096 % 64) * 64 + c.toNat / 64 % 64) * 64 +
            c.toNat % 64 = c.toNat := by omega
        rw [e, if_pos ⟨h3, h4⟩, hofNat]

theorem goSM_encode_data (cs : List Char) :
    goSM ustart ((cs.map utf8EncodeChar).flatten) = cs := by
  induction cs with
  | nil => rfl
  | cons c cs ih =>
    simp only [List.map_cons, List.flatten_cons]
    rw [goSM_encodeChar, ih]

/-- Round trip: decoding the UTF-8 encoding of any string gives the string
back (`Buffer.from(s).toString("utf-8") === s`). -/
theorem utf8Decode_encode (s : String) : utf8Decode (utf8Encode s) = s := by
  cases s with
  | mk data =>
    show utf8Decode ((data.map utf8EncodeChar).flatten) = ⟨data⟩
    rw [utf8Decode, goSM_encode_data]

/-! ## Basic facts about the per-file fetch -/

theorem okContentOf_of_ok {env : Env} {f : TreeItem} {bytes : List Nat} (dec : Bool)
    (h : env.getContent f.path = .ok bytes) :
    okContentOf env dec f =
      some ⟨f.path, utf8Decode (if dec then utf8Encode (utf8Decode bytes) else bytes)⟩ := by
  simp [okContentOf, fetchFileContent, h, Except.toOption]

theorem okContentOf_of_noContent {env : Env} {f : TreeItem} (dec : Bool)
    (h : env.getContent f.path = .noContent) : okContentOf env dec f = none := by
  simp [okContentOf, fetchFileContent, h, Except.toOption]

theorem okContentOf_of_err {env : Env} {f : TreeItem} (dec : Bool)
    (h : env.getContent f.path = .err) : okContentOf env dec f = none := by
  simp [okContentOf, fetchFileContent, h, Except.toOption]

theorem fetchFileContent_fst_of_ne_err {env : Env} {f : TreeItem} (dec : Bool)
    (h : env.getContent f.path ≠ .err) :
    (fetchFileContent env dec f).1 = .ok (okContentOf env dec f) := by
  cases hg : env.getContent f.path with
  | ok bytes => simp [fetchFileContent, okContentOf, hg, Except.toOption]
  | noContent => simp [fetchFileContent, okContentOf, hg, Except.toOption]
  | err => exact absurd hg h

theorem fetchFileContent_snd (env : Env) (dec : Bool) (f : TreeItem) :
    (fetchFileContent env dec f).2 = [ApiCall.content f.path] := by
  simp [fetchFileContent]

/-! ## Batch fetch (`Promise.all`) -/

theorem exceptBind_ok {α β : Type} (a : α) (f : α → Except String β) :
    (Except.ok a >>= f) = f a := rfl

theorem exceptBind_err {α β : Type} (e : String) (f : α → Except String β) :
    ((Except.error e : Except String α) >>= f) = .error e := rfl

theorem fetchAll_snd (env : Env) (dec : Bool) (files : List TreeItem) :
    (fetchAll env dec files).2 = files.map (fun f => ApiCall.content f.path) := by
  induction files with
  | nil => rfl
  | cons f rest ih => simp [fetchAll, fetchFileContent_snd, ih]

theorem fetchAll_fst_of_ok {env : Env} (dec : Bool) {files : List TreeItem}
    (h : fetchOkAll env files) :
    (fetchAll env dec files).1 = .ok (files.map (okContentOf env dec)) := by
  induction files with
  | nil => rfl
  | cons f rest ih =>
    have hf : env.getContent f.path ≠ .err := h f (List.mem_cons_self f rest)
    have hrest : fetchOkAll env rest := fun g hg => h g (List.mem_cons_of_mem f hg)
    simp [fetchAll, fetchFileContent_fst_of_ne_err dec hf, ih hrest, exceptBind_ok]

theorem fetchAll_fst_ok_elim {env : Env} {dec : Bool} {files : List TreeItem}
    {cs : List (Option FetchedFile)} (h : (fetchAll env dec files).1 = .ok cs) :
    fetchOkAll env files ∧ cs = files.map (okContentOf env dec) := by
  induction files generalizing cs with
  | nil =>
    simp [fetchAll] at h
    subst h
    exact ⟨fun f hf => absurd hf (List.not_mem_nil f), rfl⟩
  | cons f rest ih =>
    cases hg : env.getContent f.path with
    | err =>
      rw [show (fetchAll env dec (f :: rest)).1 = .error contentErrMsg by
        simp only [fetchAll, fetchFileContent, hg]
        cases hr : (fetchAll env dec rest).1 <;> rfl] at h
      exact absurd h (by simp)
    | ok bytes =>
      have hf : env.getContent f.path ≠ .err := by simp [hg]
      cases hr : (fetchAll env dec rest).1 with
      | error e =>
        rw [show (fetchAll env dec (f :: rest)).1 = .error e by
          simp [fetchAll, fetchFileContent, hg, hr, exceptBind_ok, exceptBind_err]] at h
        exact absurd h (by simp)
      | ok csr =>
        rw [show (fetchAll env dec (f :: rest)).1 =
            .ok (okContentOf env dec f :: csr) by
          simp [fetchAll, fetchFileContent_fst_of_ne_err dec hf, hr, exceptBind_ok]] at h
        obtain ⟨hOk, hcs⟩ := ih hr
        refine ⟨?_, ?_⟩
        · intro g hgm
          rcases List.mem_cons.mp hgm with hEq | hMem
          · subst hEq; exact hf
          · exact hOk g hMem
        · simp at h
          subst h
          simp [hcs]
    | noContent =>
      have hf : env.getContent f.path ≠ .err := by simp [hg]
      cases hr : (fetchAll env dec rest).1 with
      | error e =>
        rw [show (fetchAll env dec (f :: rest)).1 = .error e by
          simp [fetchAll, fetchFileContent, hg, hr, exceptBind_ok, exceptBind_err]] at h
        exact absurd h (by simp)
      | ok csr =>
        rw [show (fetchAll env dec (f :: rest)).1 =
            .ok (okContentOf env dec f :: csr) by
          simp [fetchAll, fetchFileContent_fst_of_ne_err dec hf, hr, exceptBind_ok]] at h
        obtain ⟨hOk, hcs⟩ := ih hr
        refine ⟨?_, ?_⟩
        · intro g hgm
          rcases List.mem_cons.mp hgm with hEq | hMem
          · subst hEq; exact hf
          · exact hOk g hMem
        · simp at h
          subst h
          simp [hcs]

/-! ## The streaming loop -/

theorem streamRun_of_ok {env : Env} (dec : Bool) (fmt : OutputFormat) {files : List TreeItem}
    (h : fetchOkAll env files) :
    streamRun env dec fmt files =
      (((files.filterMap (okContentOf env dec)).map (fun x => formatOutput [x] fmt), none),
       files.map (fun f => ApiCall.content f.path)) := by
  induction files with
  | nil => rfl
  | cons f rest ih =>
    have hf : env.getContent f.path ≠ .err := h f (List.mem_cons_self f rest)
    have hrest : fetchOkAll env rest := fun g hg => h g (List.mem_cons_of_mem f hg)
    cases hc : okContentOf env dec f with
    | none =>
      simp [streamRun, fetchFileContent_fst_of_ne_err dec hf, hc, ih hrest,
        fetchFileContent_snd]
    | some file =>
      simp [streamRun, fetchFileContent_fst_of_ne_err dec hf, hc, ih hrest,
        fetchFileContent_snd]

/-! ## Characterising the top-level operations -/

theorem loadGitignore_snd (env : Env) (st : List String) :
    (loadGitignore env st).2 = [ApiCall.content gitignorePath] := rfl

theorem getRepoFiles_sha_none {env : Env} {st : List String} {pred : Option (String → Bool)}
    (h : env.treeSha = none) :
    getRepoFiles env st pred = (.error treeShaMsg, [ApiCall.getCommit]) := by
  simp [getRepoFiles, h]

theorem getRepoFiles_sha_some {env : Env} {st : List String} {pred : Option (String → Bool)}
    {sha : String} (h : env.treeSha = some sha) :
    getRepoFiles env st pred =
      (.ok (env.tree.filter fun item =>
          item.type == "blob" && passFilter pred item.path && !(st.contains item.path)),
       [ApiCall.getCommit, ApiCall.getTree]) := by
  simp [getRepoFiles, h]

theorem enumeratedFiles_eq {env : Env} (st : List String) (ign : Bool)
    (pred : Option (String → Bool)) {sha : String} (h : env.treeSha = some sha) :
    enumeratedFiles env st ign pred =
      env.tree.filter (fun item =>
        item.type == "blob" && passFilter pred item.path &&
          !((postIgnoreState env st ign).contains item.path)) := by
  simp [enumeratedFiles, getRepoFiles_sha_some h]

/-- The per-call trace prefix contributed by quota check, exclusion load
and enumeration. -/
def headTrace (ign : Bool) : List ApiCall :=
  ApiCall.rateLimit ::
    ((if ign then [ApiCall.content gitignorePath] else []) ++ [ApiCall.getCommit, ApiCall.getTree])

theorem fetchRepoContent_quota {env : Env} (st : List String) (dec ign : Bool)
    (fmt : OutputFormat) (pred : Option (String → Bool)) (hrem : env.remaining = 0) :
    fetchRepoContent env st dec ign fmt pred =
      (.error rateLimitMsg, st, [ApiCall.rateLimit]) := by
  simp [fetchRepoContent, hrem]

theorem fetchRepoContentStream_quota {env : Env} (st : List String) (dec ign : Bool)
    (fmt : OutputFormat) (pred : Option (String → Bool)) (hrem : env.remaining = 0) :
    fetchRepoContentStream env st dec ign fmt pred =
      (([], some rateLimitMsg), st, [ApiCall.rateLimit]) := by
  simp [fetchRepoContentStream, hrem]

theorem fetchRepoContent_sha_none {env : Env} (st : List String) (dec ign : Bool)
    (fmt : OutputFormat) (pred : Option (String → Bool)) (hrem : env.remaining ≠ 0)
    (hsha : env.treeSha = none) :
    fetchRepoContent env st dec ign fmt pred =
      (.error treeShaMsg, postIgnoreState env st ign,
       ApiCall.rateLimit ::
         ((if ign then [ApiCall.content gitignorePath] else []) ++ [ApiCall.getCommit])) := by
  simp only [fetchRepoContent, if_neg hrem, getRepoFiles_sha_none hsha]
  cases ign <;> simp [postIgnoreState, loadGitignore_snd]

theorem fetchRepoContent_eval {env : Env} {st : List String} {dec ign : Bool}
    {fmt : OutputFormat} {pred : Option (String → Bool)} {sha : String}
    (hrem : env.remaining ≠ 0) (hsha : env.treeSha = some sha)
    (hok : fetchOkAll env (enumeratedFiles env st ign pred)) :
    fetchRepoContent env st dec ign fmt pred =
      (.ok (formatOutput ((enumeratedFiles env st ign pred).filterMap (okContentOf env dec)) fmt),
       postIgnoreState env st ign,
       headTrace ign ++
         (enumeratedFiles env st ign pred).map (fun f => ApiCall.content f.path)) := by
  have henum := enumeratedFiles_eq st ign pred hsha
  have h1 : (if ign = true then loadGitignore env st else (st, [])).1 =
      postIgnoreState env st ign := by
    cases ign <;> simp [postIgnoreState]
  have h2 : (if ign = true then loadGitignore env st else (st, [])).2 =
      (if ign = true then [ApiCall.content gitignorePath] else []) := by
    cases ign <;> simp [loadGitignore_snd]
  simp only [fetchRepoContent, if_neg hrem, getRepoFiles_sha_some hsha, h1, h2]
  rw [← henum, fetchAll_fst_of_ok dec hok, fetchAll_snd]
  simp [headTrace, List.filterMap_map]

theorem fetchAll_fst_err {env : Env} (dec : Bool) {files : List TreeItem}
    (h : ¬ fetchOkAll env files) : ∃ e, (fetchAll env dec files).1 = .error e := by
  induction files with
  | nil => exact absurd (fun f hf => absurd hf (List.not_mem_nil f)) h
  | cons f rest ih =>
    by_cases hf : env.getContent f.path = .err
    · refine ⟨contentErrMsg, ?_⟩
      simp only [fetchAll, fetchFileContent, hf]
      cases hr : (fetchAll env dec rest).1 <;> rfl
    · have hrest : ¬ fetchOkAll env rest := by
        intro hr
        exact h (fun g hg => by
          rcases List.mem_cons.mp hg with hEq | hMem
          · subst hEq; exact hf
          · exact hr g hMem)
      obtain ⟨e, he⟩ := ih hrest
      refine ⟨e, ?_⟩
      rw [show (fetchAll env dec (f :: rest)).1 =
          ((fetchFileContent env dec f).1 >>= fun x =>
            (fetchAll env dec rest).1 >>= fun xs => pure (x :: xs)) from rfl]
      rw [fetchFileContent_fst_of_ne_err dec hf, he]
      rfl

theorem fetchRepoContent_fetch_err {env : Env} {st : List String} (dec : Bool) {ign : Bool}
    (fmt : OutputFormat) {pred : Option (String → Bool)} {sha : String}
    (hrem : env.remaining ≠ 0) (hsha : env.treeSha = some sha)
    (hne : ¬ fetchOkAll env (enumeratedFiles env st ign pred)) :
    ∃ e, fetchRepoContent env st dec ign fmt pred =
      (.error e, postIgnoreState env st ign,
       headTrace ign ++
         (enumeratedFiles env st ign pred).map (fun f => ApiCall.content f.path)) := by
  have henum := enumeratedFiles_eq st ign pred hsha
  have h1 : (if ign = true then loadGitignore env st else (st, [])).1 =
      postIgnoreState env st ign := by
    cases ign <;> simp [postIgnoreState]
  have h2 : (if ign = true then loadGitignore env st else (st, [])).2 =
      (if ign = true then [ApiCall.content gitignorePath] else []) := by
    cases ign <;> simp [loadGitignore_snd]
  obtain ⟨e, he⟩ := fetchAll_fst_err dec hne
  refine ⟨e, ?_⟩
  simp only [fetchRepoContent, if_neg hrem, getRepoFiles_sha_some hsha, h1, h2]
  rw [← henum, he, fetchAll_snd]
  simp [headTrace]

theorem fetchRepoContent_state {env : Env} (st : List String) (dec ign : Bool)
    (fmt : OutputFormat) (pred : Option (String → Bool)) (hrem : env.remaining ≠ 0) :
    (fetchRepoContent env st dec ign fmt pred).2.1 = postIgnoreState env st ign := by
  cases hsha : env.treeSha with
  | none => rw [fetchRepoContent_sha_none st dec ign fmt pred hrem hsha]
  | some sha =>
    by_cases hok : fetchOkAll env (enumeratedFiles env st ign pred)
    · rw [fetchRepoContent_eval hrem hsha hok]
    · obtain ⟨e, he⟩ := fetchRepoContent_fetch_err dec fmt hrem hsha hok
      rw [he]

theorem fetchRepoContentStream_eval {env : Env} {st : List String} {dec ign : Bool}
    {fmt : OutputFormat} {pred : Option (String → Bool)} {sha : String}
    (hrem : env.remaining ≠ 0) (hsha : env.treeSha = some sha)
    (hok : fetchOkAll env (enumeratedFiles env st ign pred)) :
    fetchRepoContentStream env st dec ign fmt pred =
      ((((enumeratedFiles env st ign pred).filterMap (okContentOf env dec)).map
          (fun x => formatOutput [x] fmt), none),
       postIgnoreState env st ign,
       headTrace ign ++
         (enumeratedFiles env st ign pred).map (fun f => ApiCall.content f.path)) := by
  have henum := enumeratedFiles_eq st ign pred hsha
  have h1 : (if ign = true then loadGitignore env st else (st, [])).1 =
      postIgnoreState env st ign := by
    cases ign <;> simp [postIgnoreState]
  have h2 : (if ign = true then loadGitignore env st else (st, [])).2 =
      (if ign = true then [ApiCall.content gitignorePath] else []) := by
    cases ign <;> simp [loadGitignore_snd]
  simp only [fetchRepoContentStream, if_neg hrem, getRepoFiles_sha_some hsha, h1, h2]
  rw [← henum, streamRun_of_ok dec fmt hok]
  simp [headTrace]

theorem fetchRepoContent_ok_elim {env : Env} {st : List String} {dec ign : Bool}
    {fmt : OutputFormat} {pred : Option (String → Bool)} {out : Output}
    {st' : List String} {tr : List ApiCall}
    (h : fetchRepoContent env st dec ign fmt pred = (.ok out, st', tr)) :
    env.remaining ≠ 0 ∧
    (∃ sha, env.treeSha = some sha) ∧
    fetchOkAll env (enumeratedFiles env st ign pred) ∧
    out = formatOutput ((enumeratedFiles env st ign pred).filterMap (okContentOf env dec)) fmt ∧
    st' = postIgnoreState env st ign ∧
    tr = headTrace ign ++
      (enumeratedFiles env st ign pred).map (fun f => ApiCall.content f.path) := by
  by_cases hrem : env.remaining = 0
  · rw [fetchRepoContent_quota st dec ign fmt pred hrem] at h
    simp at h
  · cases hsha : env.treeSha with
    | none =>
      rw [fetchRepoContent_sha_none st dec ign fmt pred hrem hsha] at h
      simp at h
    | some sha =>
      by_cases hok : fetchOkAll env (enumeratedFiles env st ign pred)
      · rw [fetchRepoContent_eval hrem hsha hok] at h
        simp only [Prod.mk.injEq, Except.ok.injEq] at h
        obtain ⟨hout, hst, htr⟩ := h
        exact ⟨hrem, ⟨sha, rfl⟩, hok, hout.symm, hst.symm, htr.symm⟩
      · obtain ⟨e, he⟩ := fetchRepoContent_fetch_err dec fmt hrem hsha hok
        rw [h] at he
        simp at he

/-! ## List facts used by the ordering claims -/

theorem flatten_map_singleton {α : Type} (l : List α) :
    (l.map fun x => [x]).flatten = l := by
  induction l with
  | nil => rfl
  | cons x xs ih => simp [ih]

theorem runSchedule_lookup {α : Type} (fetch : Nat → α) (sched : List Nat) (i : Nat) :
    (runSchedule fetch sched).lookup i = if i ∈ sched then some (fetch i) else none := by
  induction sched with
  | nil => simp [runSchedule]
  | cons j rest ih =>
    by_cases hji : j = i
    · subst hji
      simp [runSchedule, List.lookup]
    · have hij : i ≠ j := fun hEq => hji hEq.symm
      have hb : (i == j) = false := beq_eq_false_iff_ne.mpr hij
      simp [runSchedule, List.lookup, hb, ih, hij]

theorem gather_covering {α : Type} (fetch : Nat → α) (n : Nat) (sched : List Nat)
    (hcov : coversRange n sched) :
    gather n (runSchedule fetch sched) = (List.range n).map (fun i => some (fetch i)) := by
  unfold gather
  apply List.map_congr_left
  intro i hi
  rw [runSchedule_lookup, if_pos (hcov i (List.mem_range.mp hi))]

/-! ## Scheduler invariants -/

theorem inflight_cons_start (t : Nat) (tr : List Ev) :
    inflight (⟨t, .start⟩ :: tr) =
      (tr.countP (fun e => e.kind == .start) + 1) - tr.countP (fun e => e.kind == .finish) := by
  simp [inflight, List.countP_cons]

theorem inflight_cons_finish (t : Nat) (tr : List Ev) :
    inflight (⟨t, .finish⟩ :: tr) =
      tr.countP (fun e => e.kind == .start) - (tr.countP (fun e => e.kind == .finish) + 1) := by
  simp [inflight, List.countP_cons]

theorem startsInWindow_cons_start (w t' t : Nat) (tr : List Ev) :
    startsInWindow w t' (⟨t, .start⟩ :: tr) =
      startsInWindow w t' tr + (if t ≤ t' ∧ t' < t + w then 1 else 0) := by
  simp only [startsInWindow, List.countP_cons]
  by_cases h : t ≤ t' ∧ t' < t + w
  · simp [h.1, h.2]
  · rcases Decidable.not_and_iff_or_not.mp h with h1 | h1 <;> simp [h1, h]

theorem startsInWindow_cons_finish (w t' t : Nat) (tr : List Ev) :
    startsInWindow w t' (⟨t, .finish⟩ :: tr) = startsInWindow w t' tr := by
  simp [startsInWindow, List.countP_cons]

theorem inflight_le_of_valid {cfg : RateLimitConfig} {tr : List Ev}
    (h : ValidTrace cfg tr) : inflight tr ≤ cfg.concurrency := by
  induction h with
  | nil => simp [inflight]
  | start hv hmono hc hr ih =>
    rw [inflight_cons_start]
    rw [inflight] at hc
    omega
  | finish hv hmono ih =>
    rw [inflight_cons_finish]
    rw [inflight] at ih
    omega

theorem startsInWindow_le_of_valid {cfg : RateLimitConfig} {tr : List Ev}
    (h : ValidTrace cfg tr) (t' : Nat) :
    startsInWindow cfg.intervalMs t' tr ≤ cfg.requestsPerInterval := by
  induction h with
  | nil => simp [startsInWindow]
  | @start tr t hv hmono hc hr ih =>
    rw [startsInWindow_cons_start]
    by_cases hin : t ≤ t' ∧ t' < t + cfg.intervalMs
    · have hmono2 : startsInWindow cfg.intervalMs t' tr ≤ startsInWindow cfg.intervalMs t tr := by
        apply List.countP_mono_left
        intro e he hp
        simp only [Bool.and_eq_true, decide_eq_true_eq] at hp ⊢
        exact ⟨⟨hp.1.1, hmono e he⟩, by omega⟩
      rw [if_pos hin]
      omega
    · rw [if_neg hin]
      omega
  | finish hv hmono ih =>
    rw [startsInWindow_cons_finish]
    exact ih

/-! ## The claims -/

/-- C1: whenever the quota check reports `remaining = 0`, both
`fetchRepoContent` and `fetchRepoContentStream` fail immediately with the
quota-exhausted error, leave the instance state untouched, and their call
trace is exactly the one rate-limit read: no enumeration call
(`getCommit`/`getTree`), no exclusion-file load and no content fetch is
issued. -/
theorem quotaExhausted_failsFast (env : Env) (st : List String) (dec ign : Bool)
    (fmt : OutputFormat) (pred : Option (String → Bool)) (hrem : env.remaining = 0) :
    fetchRepoContent env st dec ign fmt pred =
      (.error rateLimitMsg, st, [ApiCall.rateLimit]) ∧
    fetchRepoContentStream env st dec ign fmt pred =
      (([], some rateLimitMsg), st, [ApiCall.rateLimit]) :=
  ⟨fetchRepoContent_quota st dec ign fmt pred hrem,
   fetchRepoContentStream_quota st dec ign fmt pred hrem⟩

/-- Witness for C1 at the concrete exhausted snapshot `envQ`. -/
theorem quotaExhausted_failsFast_witness :
    envQ.remaining = 0 ∧
    fetchRepoContent envQ [] false true .json none =
      (.error rateLimitMsg, [], [ApiCall.rateLimit]) ∧
    fetchRepoContentStream envQ [] false true .json none =
      (([], some rateLimitMsg), [], [ApiCall.rateLimit]) :=
  ⟨rfl, (quotaExhausted_failsFast envQ [] false true .json none rfl).1,
   (quotaExhausted_failsFast envQ [] false true .json none rfl).2⟩

/-- C2: the enumerator keeps exactly the tree entries of kind `blob` that
pass the optional predicate and whose path is not an exact member of the
exclusion set; exclusion is exact-path matching.  (The witness instantiates
the spec's example: with exclusions `{"a.txt", "secret/"}`, `a.txt` is
dropped while `secret/key.pem` is retained.) -/
theorem getRepoFiles_filters_blobs (env : Env) (st : List String)
    (pred : Option (String → Bool)) (fs : List TreeItem)
    (hfs : (getRepoFiles env st pred).1 = .ok fs) (item : TreeItem) :
    item ∈ fs ↔
      item ∈ env.tree ∧ item.type = "blob" ∧
        (pred = none ∨ ∃ f, pred = some f ∧ f item.path = true) ∧ item.path ∉ st := by
  cases hsha : env.treeSha with
  | none =>
    rw [getRepoFiles_sha_none hsha] at hfs
    simp at hfs
  | some sha =>
    rw [getRepoFiles_sha_some hsha] at hfs
    simp only [Except.ok.injEq] at hfs
    subst hfs
    simp only [List.mem_filter, Bool.and_eq_true, beq_iff_eq, Bool.not_eq_eq_eq_not,
      Bool.not_true, List.contains, List.elem_eq_mem, decide_eq_false_iff_not]
    cases pred with
    | none => simp [passFilter]
    | some f => simp [passFilter, and_assoc]

/-- Witness for C2 on `envC2` with exclusion set `{"a.txt", "secret/"}`:
`a.txt` is dropped, `secret/key.pem` survives (exact-path matching only). -/
theorem getRepoFiles_filters_blobs_witness :
    (⟨"a.txt", "blob"⟩ : TreeItem) ∉ filesC2 ∧
    (⟨"secret/key.pem", "blob"⟩ : TreeItem) ∈ filesC2 := by
  have hfs : (getRepoFiles envC2 ["a.txt", "secret/"] none).1 = .ok filesC2 := by decide
  constructor
  · intro hmem
    have h := (getRepoFiles_filters_blobs envC2 ["a.txt", "secret/"] none filesC2 hfs
      ⟨"a.txt", "blob"⟩).mp hmem
    exact h.2.2.2 (by decide)
  · exact (getRepoFiles_filters_blobs envC2 ["a.txt", "secret/"] none filesC2 hfs
      ⟨"secret/key.pem", "blob"⟩).mpr ⟨by decide, rfl, Or.inl rfl, by decide⟩

/-- C8: the `buffer` output of the formatter, decoded as UTF-8 text, is
byte-identical to the `string` output for the same input set. -/
theorem formatOutput_buffer_decodes_to_string (files : List FetchedFile)
    (bs : List Nat) (s : String)
    (hb : formatOutput files .buffer = .buf bs)
    (hs : formatOutput files .string = .str s) :
    utf8Decode bs = s := by
  simp only [formatOutput, Output.buf.injEq] at hb
  simp only [formatOutput, Output.str.injEq] at hs
  rw [← hb, ← hs]
  exact utf8Decode_encode _

/-- Witness for C8 on a one-file input set. -/
theorem formatOutput_buffer_decodes_to_string_witness :
    formatOutput [(⟨"a", "x"⟩ : FetchedFile)] .buffer =
      .buf (utf8Encode "File: a\nContent:\nx\n---\n") ∧
    formatOutput [(⟨"a", "x"⟩ : FetchedFile)] .string = .str "File: a\nContent:\nx\n---\n" ∧
    utf8Decode (utf8Encode "File: a\nContent:\nx\n---\n") = "File: a\nContent:\nx\n---\n" :=
  ⟨rfl, rfl,
   formatOutput_buffer_decodes_to_string [⟨"a", "x"⟩]
     (utf8Encode "File: a\nContent:\nx\n---\n") "File: a\nContent:\nx\n---\n" rfl rfl⟩

/-- C10: `fetchFileContent` returns the same result whatever the
`decodeContent` flag is, for every remote payload (any byte sequence, not
only well-formed UTF-8): the extra decode/re-encode step is cancelled by
the final `toString("utf-8")`, so the flag has no observable effect. -/
theorem fetchFileContent_decode_flag_noop (env : Env) (file : TreeItem) (d1 d2 : Bool) :
    fetchFileContent env d1 file = fetchFileContent env d2 file := by
  cases hg : env.getContent file.path <;>
    cases d1 <;> cases d2 <;>
      simp [fetchFileContent, hg, utf8Decode_encode]

/-- C3: for a fixed snapshot and identical arguments, a successful batch
run with `json` output determines the stream run: the stream yields
exactly one singleton `json` item per batch entry, in the same order and
with the same final state and trace, and concatenating the yielded
singletons gives back the batch collection (so the two modes produce the
same set of `{path, content}` entries, a fortiori ignoring order). -/
theorem stream_collects_to_batch (env : Env) (st : List String) (dec ign : Bool)
    (pred : Option (String → Bool)) (L : List FetchedFile) (st' : List String)
    (tr : List ApiCall)
    (h : fetchRepoContent env st dec ign .json pred = (.ok (.json L), st', tr)) :
    fetchRepoContentStream env st dec ign .json pred =
      ((L.map fun f => Output.json [f], none), st', tr) ∧
    (L.map fun f => [f]).flatten = L := by
  obtain ⟨hrem, ⟨sha, hsha⟩, hok, hout, hst, htr⟩ := fetchRepoContent_ok_elim h
  have hL : L = (enumeratedFiles env st ign pred).filterMap (okContentOf env dec) := by
    simpa [formatOutput] using hout
  subst hst htr hL
  rw [fetchRepoContentStream_eval hrem hsha hok]
  refine ⟨?_, flatten_map_singleton _⟩
  simp [formatOutput]

/-- Witness for C3 at the concrete snapshot `envJ`. -/
theorem stream_collects_to_batch_witness :
    fetchRepoContentStream envJ [] false true .json none =
      (([Output.json [⟨"README.md", "hello"⟩], Output.json [⟨"src/a.ts", "let x = 1"⟩]], none),
       ["dist/bundle.js"],
       [ApiCall.rateLimit, ApiCall.content ".gitignore", ApiCall.getCommit, ApiCall.getTree,
        ApiCall.content "README.md", ApiCall.content "src/a.ts", ApiCall.content "link"]) ∧
    (([⟨"README.md", "hello"⟩, ⟨"src/a.ts", "let x = 1"⟩] : List FetchedFile).map
        fun f => [f]).flatten = [⟨"README.md", "hello"⟩, ⟨"src/a.ts", "let x = 1"⟩] :=
  stream_collects_to_batch envJ [] false true none
    [⟨"README.md", "hello"⟩, ⟨"src/a.ts", "let x = 1"⟩] ["dist/bundle.js"]
    [ApiCall.rateLimit, ApiCall.content ".gitignore", ApiCall.getCommit, ApiCall.getTree,
     ApiCall.content "README.md", ApiCall.content "src/a.ts", ApiCall.content "link"]
    (by decide)

/-- C6: in batch mode the formatted collection follows the enumeration
order regardless of completion order: under any completion schedule that
settles every request, re-assembling results by originating index yields
the per-entry results in enumeration order (independent of the schedule),
the result at index `i` is the fetch of the `i`-th enumerated entry, and
the final `json` collection is the enumeration-ordered list of present
results. -/
theorem batch_matches_results_by_origin (env : Env) (st : List String) (dec ign : Bool)
    (pred : Option (String → Bool)) (L : List FetchedFile) (st' : List String)
    (tr : List ApiCall) (sched : List Nat)
    (h : fetchRepoContent env st dec ign .json pred = (.ok (.json L), st', tr))
    (hcov : coversRange (enumeratedFiles env st ign pred).length sched) :
    gather (enumeratedFiles env st ign pred).length
        (runSchedule (fileResAt env dec (enumeratedFiles env st ign pred)) sched) =
      (List.range (enumeratedFiles env st ign pred).length).map
        (fun i => some (fileResAt env dec (enumeratedFiles env st ign pred) i)) ∧
    (∀ i, ∀ hi : i < (enumeratedFiles env st ign pred).length,
        fileResAt env dec (enumeratedFiles env st ign pred) i =
          (fetchFileContent env dec ((enumeratedFiles env st ign pred).get ⟨i, hi⟩)).1) ∧
    L = (enumeratedFiles env st ign pred).filterMap (okContentOf env dec) := by
  obtain ⟨hrem, ⟨sha, hsha⟩, hok, hout, hst, htr⟩ := fetchRepoContent_ok_elim h
  refine ⟨gather_covering _ _ _ hcov, ?_, by simpa [formatOutput] using hout⟩
  intro i hi
  simp [fileResAt, List.getElem?_eq_getElem hi]

/-- Witness for C6 at `envJ` with the reversed completion schedule. -/
theorem batch_matches_results_by_origin_witness :
    gather (enumeratedFiles envJ [] true none).length
        (runSchedule (fileResAt envJ false (enumeratedFiles envJ [] true none)) [2, 1, 0]) =
      (List.range (enumeratedFiles envJ [] true none).length).map
        (fun i => some (fileResAt envJ false (enumeratedFiles envJ [] true none) i)) ∧
    (∀ i, ∀ hi : i < (enumeratedFiles envJ [] true none).length,
        fileResAt envJ false (enumeratedFiles envJ [] true none) i =
          (fetchFileContent envJ false ((enumeratedFiles envJ [] true none).get ⟨i, hi⟩)).1) ∧
    [(⟨"README.md", "hello"⟩ : FetchedFile), ⟨"src/a.ts", "let x = 1"⟩] =
      (enumeratedFiles envJ [] true none).filterMap (okContentOf envJ false) :=
  batch_matches_results_by_origin envJ [] false true none
    [⟨"README.md", "hello"⟩, ⟨"src/a.ts", "let x = 1"⟩] ["dist/bundle.js"]
    [ApiCall.rateLimit, ApiCall.content ".gitignore", ApiCall.getCommit, ApiCall.getTree,
     ApiCall.content "README.md", ApiCall.content "src/a.ts", ApiCall.content "link"]
    [2, 1, 0] (by decide)
    (by
      intro i hi
      have h3 : (enumeratedFiles envJ [] true none).length = 3 := by decide
      rw [h3] at hi
      simp only [List.mem_cons, List.not_mem_nil, or_false]
      omega)

/-- C7: a remote response without a content payload makes
`fetchFileContent` return `none` (absent) rather than an error, and both
retrieval modes drop such results: on a successful `json` batch run the
collection has exactly one entry per enumerated entry whose response
carries content — present entries are exactly the content-bearing ones —
and the stream yields exactly those entries. -/
theorem contentless_entries_filtered (env : Env) (st : List String) (dec ign : Bool)
    (pred : Option (String → Bool)) (L : List FetchedFile) (st' : List String)
    (tr : List ApiCall) (file : TreeItem)
    (h : fetchRepoContent env st dec ign .json pred = (.ok (.json L), st', tr)) :
    (env.getContent file.path = .noContent →
       fetchFileContent env dec file = (.ok none, [ApiCall.content file.path])) ∧
    L = (enumeratedFiles env st ign pred).filterMap (okContentOf env dec) ∧
    (∀ f ∈ enumeratedFiles env st ign pred,
       (okContentOf env dec f).isSome ↔ ∃ bytes, env.getContent f.path = .ok bytes) ∧
    (fetchRepoContentStream env st dec ign .json pred).1 =
      (L.map fun f => Output.json [f], none) := by
  obtain ⟨hrem, ⟨sha, hsha⟩, hok, hout, hst, htr⟩ := fetchRepoContent_ok_elim h
  have hL : L = (enumeratedFiles env st ign pred).filterMap (okContentOf env dec) := by
    simpa [formatOutput] using hout
  refine ⟨?_, hL, ?_, ?_⟩
  · intro hnc
    simp [fetchFileContent, hnc]
  · intro f hf
    cases hgc : env.getContent f.path with
    | ok bytes => simp [okContentOf_of_ok dec hgc, hgc]
    | noContent => simp [okContentOf_of_noContent dec hgc, hgc]
    | err => simp [okContentOf_of_err dec hgc, hgc]
  · rw [fetchRepoContentStream_eval hrem hsha hok, hL]
    simp [formatOutput]

/-- Witness for C7 at `envJ`, whose `link` blob has a contentless
response. -/
theorem contentless_entries_filtered_witness :
    fetchFileContent envJ false ⟨"link", "blob"⟩ = (.ok none, [ApiCall.content "link"]) ∧
    [(⟨"README.md", "hello"⟩ : FetchedFile), ⟨"src/a.ts", "let x = 1"⟩] =
      (enumeratedFiles envJ [] true none).filterMap (okContentOf envJ false) ∧
    (fetchRepoContentStream envJ [] false true .json none).1 =
      ([Output.json [⟨"README.md", "hello"⟩], Output.json [⟨"src/a.ts", "let x = 1"⟩]],
       none) := by
  have H := contentless_entries_filtered envJ [] false true none
    [⟨"README.md", "hello"⟩, ⟨"src/a.ts", "let x = 1"⟩] ["dist/bundle.js"]
    [ApiCall.rateLimit, ApiCall.content ".gitignore", ApiCall.getCommit, ApiCall.getTree,
     ApiCall.content "README.md", ApiCall.content "src/a.ts", ApiCall.content "link"]
    ⟨"link", "blob"⟩ (by decide)
  exact ⟨H.1 rfl, H.2.1, H.2.2.2⟩

/-- C4 counterexample: the exclusion set used by a call does depend on an
earlier call on the same instance.  A first call against `envA` leaves the
instance state `stA = ["a.txt"]`; a second call with exclusion loading
disabled then excludes `a.txt`, while the same call from a fresh state
does not — so the set is neither rebuilt nor left empty at the start of
that call. -/
theorem exclusion_state_leaks_across_calls :
    stA = ["a.txt"] ∧
    (fetchRepoContent envA stA false false .json none).1 ≠
      (fetchRepoContent envA [] false false .json none).1 := by
  constructor
  · decide
  · decide

/-- C4 (amended): the exclusion set is rebuilt from the call's ignore-file
fetch only when exclusion loading is enabled and that fetch returns
content (in which case it does not depend on the previous state);
otherwise — loading disabled, response without content, or a thrown
fetch error — the instance's previous exclusion set persists and is used
by the call. -/
theorem exclusion_state_rebuild_or_persist (env : Env) (st : List String) (dec ign : Bool)
    (fmt : OutputFormat) (pred : Option (String → Bool)) (hrem : env.remaining ≠ 0) :
    (∀ bytes, ign = true → env.getContent gitignorePath = .ok bytes →
       (fetchRepoContent env st dec ign fmt pred).2.1 = parseGitignore (utf8Decode bytes)) ∧
    (ign = false → (fetchRepoContent env st dec ign fmt pred).2.1 = st) ∧
    ((env.getContent gitignorePath = .noContent ∨ env.getContent gitignorePath = .err) →
       (fetchRepoContent env st dec ign fmt pred).2.1 = st) := by
  have heq := fetchRepoContent_state st dec ign fmt pred hrem
  refine ⟨?_, ?_, ?_⟩
  · intro bytes hign hok
    subst hign
    rw [heq]
    simp [postIgnoreState, loadGitignore, hok]
  · intro hign
    subst hign
    rw [heq]
    simp [postIgnoreState]
  · intro hcase
    rw [heq]
    cases ign with
    | false => simp [postIgnoreState]
    | true => rcases hcase with hc | hc <;> simp [postIgnoreState, loadGitignore, hc]

/-- Witness for the amended C4 at `envA` from the stale state
`["stale"]`. -/
theorem exclusion_state_rebuild_or_persist_witness :
    (fetchRepoContent envA ["stale"] false true .json none).2.1 =
      parseGitignore (utf8Decode (utf8Encode "a.txt")) ∧
    (fetchRepoContent envA ["stale"] false false .json none).2.1 = ["stale"] :=
  ⟨(exclusion_state_rebuild_or_persist envA ["stale"] false true .json none
      (by decide)).1 (utf8Encode "a.txt") rfl rfl,
   (exclusion_state_rebuild_or_persist envA ["stale"] false false .json none
      (by decide)).2.1 rfl⟩

/-- C5 counterexample: a run whose ignore-file fetch fails does not
proceed with an empty exclusion set.  Starting from the post-state of an
earlier call (`stA = ["a.txt"]`), a call against `envB` — whose
`.gitignore` fetch throws — still excludes `a.txt`, so its result differs
from the result with no exclusions configured. -/
theorem gitignore_failure_keeps_stale_set :
    (fetchRepoContent envB stA false true .json none).1 ≠
      (fetchRepoContent envB [] false true .json none).1 := by
  decide

/-- C5 (amended): when the ignore-file fetch fails, the failure is
swallowed: the operation proceeds with the instance's previous exclusion
set (empty on a fresh instance), surfaces no error of its own, and its
result and final state are exactly those of the same call with exclusion
loading disabled; the stream behaves likewise.  Only the call trace
records the attempted load. -/
theorem gitignore_failure_swallowed (env : Env) (st : List String) (dec : Bool)
    (fmt : OutputFormat) (pred : Option (String → Bool))
    (herr : env.getContent gitignorePath = .err) :
    (fetchRepoContent env st dec true fmt pred).1 =
      (fetchRepoContent env st dec false fmt pred).1 ∧
    (fetchRepoContent env st dec true fmt pred).2.1 =
      (fetchRepoContent env st dec false fmt pred).2.1 ∧
    (fetchRepoContentStream env st dec true fmt pred).1 =
      (fetchRepoContentStream env st dec false fmt pred).1 := by
  have hg : loadGitignore env st = (st, [ApiCall.content gitignorePath]) := by
    simp [loadGitignore, herr]
  by_cases hrem : env.remaining = 0
  · rw [fetchRepoContent_quota st dec true fmt pred hrem,
      fetchRepoContent_quota st dec false fmt pred hrem,
      fetchRepoContentStream_quota st dec true fmt pred hrem,
      fetchRepoContentStream_quota st dec false fmt pred hrem]
    exact ⟨rfl, rfl, rfl⟩
  · simp only [fetchRepoContent, fetchRepoContentStream, if_neg hrem, hg]
    rcases hm : getRepoFiles env st pred with ⟨res, t2⟩
    cases res with
    | error e => simp [hm]
    | ok files =>
      cases hfa : (fetchAll env dec files).1 with
      | error e => simp [hm, hfa]
      | ok cs => simp [hm, hfa]

/-- Witness for the amended C5 at `envB` from the state `["a.txt"]`. -/
theorem gitignore_failure_swallowed_witness :
    (fetchRepoContent envB ["a.txt"] false true .json none).1 =
      (fetchRepoContent envB ["a.txt"] false false .json none).1 ∧
    (fetchRepoContent envB ["a.txt"] false true .json none).2.1 =
      (fetchRepoContent envB ["a.txt"] false false .json none).2.1 ∧
    (fetchRepoContentStream envB ["a.txt"] false true .json none).1 =
      (fetchRepoContentStream envB ["a.txt"] false false .json none).1 :=
  gitignore_failure_swallowed envB ["a.txt"] false .json none rfl

/-- C9 (modelled from the spec, the scheduler lives in the `safe-calls`
dependency): under the configuration `concurrency = 2`,
`requestsPerInterval = 5`, `intervalMs = 1000`, every trace admitted by
the two start gates keeps at most 2 operations simultaneously in flight
and starts at most 5 operations within any rolling 1000 ms window,
whatever the submission pattern. -/
theorem scheduler_gates_invariant (tr : List Ev) (h : ValidTrace ⟨2, 5, 1000⟩ tr) :
    inflight tr ≤ 2 ∧ ∀ t3, startsInWindow 1000 t3 tr ≤ 5 :=
  ⟨inflight_le_of_valid h, fun t3 => startsInWindow_le_of_valid h t3⟩

/-- Witness for C9 on the concrete four-event trace `trW`. -/
theorem scheduler_gates_invariant_witness :
    ValidTrace ⟨2, 5, 1000⟩ trW ∧
    inflight trW ≤ 2 ∧ ∀ t3, startsInWindow 1000 t3 trW ≤ 5 := by
  have hv : ValidTrace ⟨2, 5, 1000⟩ trW :=
    ValidTrace.start
      (ValidTrace.finish
        (ValidTrace.start
          (ValidTrace.start ValidTrace.nil (by decide) (by decide) (by decide))
          (by decide) (by decide) (by decide))
        (by decide))
      (by decide) (by decide) (by decide)
  exact ⟨hv, (scheduler_gates_invariant trW hv).1, (scheduler_gates_invariant trW hv).2⟩

end GitRepoLoader
